import Mathlib

/-!
Verification development for the pycheckers rule engine
(`src/pycheckers/checkers.py`).

The engine works on a packed index of the 32 playable (dark) tiles of an
8x8 board.  Tile indices are arranged as in the docstring of
`Board._populate`:

```
|  |28|  |29|  |30|  |31|
|24|  |25|  |26|  |27|  |
|  |20|  |21|  |22|  |23|
|16|  |17|  |18|  |19|  |
|  |12|  |13|  |14|  |15|
| 8|  | 9|  |10|  |11|  |
|  | 4|  | 5|  | 6|  | 7|
| 0|  | 1|  | 2|  | 3|  |
```

The embedding models the mutable Python objects (tiles with an occupancy
flag, pieces owned by two players, a board holding all of them) as one
explicit `GameState` record that every operation threads through.  Python
integers become `Int`; Python `%` and `//` on integers are `Int.emod` and
`Int.ediv` (both floor-style for the positive divisors used here).
-/

/-- Length of each square game tile in pixels (`TILE_SIZE`). -/
abbrev tileSize : Int := 80

/-- Length of the board in tiles (`BOARD_SIZE`). -/
abbrev boardSize : Int := 8

/-- Half of `boardSize`; how many playable tiles fit in one row
(`HALF_BOARD_SIZE`). -/
abbrev halfBoardSize : Int := boardSize / 2

/-- Nat version of `BOARD_SIZE`, used for list lengths. -/
abbrev boardSizeN : Nat := 8

/-- Nat version of `HALF_BOARD_SIZE`. -/
abbrev halfBoardSizeN : Nat := boardSizeN / 2

/-- Player colors (`PlayerColor`). -/
inductive PlayerColor where
  | black
  | red
deriving DecidableEq, Repr

/-- Decidable universal quantification over the two colors. -/
instance : Fintype PlayerColor :=
  ⟨⟨{PlayerColor.black, PlayerColor.red}, by decide⟩, by intro c; cases c <;> decide⟩

/-- Color of the opposing player, as selected by `Board.getOpponent`. -/
def PlayerColor.opponent : PlayerColor → PlayerColor
  | .black => .red
  | .red => .black

/-- A checker piece: its owning color, the index of the tile it currently
occupies (`_tilenum`) and its king flag (`_isKing`).  The drawing state of
the Python object (circle, crown) is presentation only and not modelled. -/
structure Piece where
  color : PlayerColor
  tilenum : Int
  isKing : Bool
deriving DecidableEq, Repr

/-- A single-hop capture descriptor (`Jump`): the tile of the piece to be
jumped over and the empty tile the jumping piece lands on. -/
structure Jump where
  jumpedTile : Int
  endTile : Int
deriving DecidableEq, Repr

/-- The mutable state of one game: the occupancy flag of every tile
(`Tile._isOccupied`; only indices `0..31` correspond to real tiles, the
function is `false` elsewhere) plus the piece lists of the two players
(`Player._pieces`, in list order). -/
structure GameState where
  occupied : Int → Bool
  black : List Piece
  red : List Piece

/-- Piece list of the player of a given color. -/
def GameState.piecesOf (s : GameState) : PlayerColor → List Piece
  | .black => s.black
  | .red => s.red

/-- Row of a packed tile index (each row holds `HALF_BOARD_SIZE` playable
tiles, counted from the bottom as in `Board._populate`). -/
def rowOf (t : Int) : Int := t.ediv halfBoardSize

/-- X pixel coordinate of the center of tile `t`, as laid out by
`Board._populate`: rows alternate between starting at x = 0 and
x = `TILE_SIZE`; consecutive playable tiles in a row are `2*TILE_SIZE`
apart, and the center is `TILE_SIZE/2` in from the corner. -/
def locX (t : Int) : Int :=
  2 * tileSize * (t.emod halfBoardSize) + tileSize / 2 +
    (if (rowOf t).emod 2 == 1 then tileSize else 0)

/-- Y pixel coordinate of the center of tile `t`: `Board._populate` starts
at y = `TILE_SIZE*BOARD_SIZE` and moves down one `TILE_SIZE` per row; the
center is `TILE_SIZE/2` below the top corner. -/
def locY (t : Int) : Int :=
  tileSize * boardSize - tileSize * rowOf t - tileSize / 2

/-- The row-parity test `(location.getY()/TILE_SIZE - 0.5) % 2 == 0` from
`Piece._getPosMoves`.  At a tile center `locY t = TILE_SIZE*(BOARD_SIZE -
rowOf t) - TILE_SIZE/2`, the float expression is exactly the integer
`(2*locY t - TILE_SIZE) / (2*TILE_SIZE) = BOARD_SIZE - 1 - rowOf t`, so
the test is computed here with exact integer arithmetic. -/
def rowParityEven (t : Int) : Bool :=
  ((2 * locY t - tileSize) / (2 * tileSize)).emod 2 == 0

/-- Static edge-of-board test `Board.isEdgeTile`: bottom row, top row, left
column, or right column of the packed index. -/
def isEdgeTile (t : Int) : Bool :=
  decide (t < halfBoardSize)
    || decide ((boardSize - 1) * halfBoardSize ≤ t)
    || (t.emod boardSize == 0)
    || (t.emod boardSize == boardSize - 1)

/-- Candidate one-step destinations of a piece (`Piece._getPosMoves`):
kings get up to four diagonal neighbors filtered to existing tiles; men
get only their forward neighbors (no range filter in the source). -/
def Piece.getPosMoves (p : Piece) : List Int :=
  let t := p.tilenum
  if p.isKing then
    (if t.emod boardSize == 0 || t.emod boardSize == boardSize - 1 then
        [t - halfBoardSize, t + halfBoardSize]
      else if rowParityEven t then
        [t - halfBoardSize, t - halfBoardSize + 1, t + halfBoardSize,
          t + halfBoardSize + 1]
      else
        [t - halfBoardSize - 1, t - halfBoardSize, t + halfBoardSize - 1,
          t + halfBoardSize]).filter
      (fun tm => decide (0 ≤ tm) && decide (tm < boardSize * halfBoardSize))
  else if p.color = .black then
    if t.emod boardSize == 0 || t.emod boardSize == boardSize - 1 then
      [t + halfBoardSize]
    else if rowParityEven t then
      [t + halfBoardSize, t + halfBoardSize + 1]
    else
      [t + halfBoardSize - 1, t + halfBoardSize]
  else
    if t.emod boardSize == 0 || t.emod boardSize == boardSize - 1 then
      [t - halfBoardSize]
    else if rowParityEven t then
      [t - halfBoardSize, t - halfBoardSize + 1]
    else
      [t - halfBoardSize - 1, t - halfBoardSize]

/-- Tile indices occupied by the opponent of color `c`
(`Player.tiles` of `Board.getOpponent(c)`; the Python set is modelled as
the list of positions, which has the same membership). -/
def GameState.oppTiles (s : GameState) (c : PlayerColor) : List Int :=
  (s.piecesOf c.opponent).map Piece.tilenum

/-- Legal simple moves of a piece (`Piece.getMoves`): candidate neighbors
that are unoccupied. -/
def Piece.getMoves (p : Piece) (s : GameState) : List Int :=
  p.getPosMoves.filter (fun n => !(s.occupied n))

/-- The `Jump` built by `Piece.getJumps` for an opponent-occupied neighbor
`n` of the piece at `t`: the diagonal direction is read off by comparing
the neighbor tile center to the piece center, and the landing tile
continues two steps in that direction (`t - BOARD_SIZE + 1` down-right,
`t + BOARD_SIZE + 1` up-right, `t - BOARD_SIZE - 1` down-left,
`t + BOARD_SIZE - 1` up-left). -/
def mkJump (t n : Int) : Jump :=
  if locX n > locX t then
    if locY n > locY t then ⟨n, t - boardSize + 1⟩
    else ⟨n, t + boardSize + 1⟩
  else
    if locY n > locY t then ⟨n, t - boardSize - 1⟩
    else ⟨n, t + boardSize - 1⟩

/-- Legal jumps of a piece (`Piece.getJumps`): for each candidate neighbor
occupied by an opponent piece build the directional jump, then keep those
whose jumped tile is not an edge tile and whose landing tile is
unoccupied. -/
def Piece.getJumps (p : Piece) (s : GameState) : List Jump :=
  ((p.getPosMoves.filter (fun n => decide (n ∈ s.oppTiles p.color))).map
      (mkJump p.tilenum)).filter
    (fun j => !isEdgeTile j.jumpedTile && !(s.occupied j.endTile))

/-- Piece-level part of `Piece.moveTo`: update `_tilenum`; a king only
moves its crown, a man entering the opponent back row (`tilenum >=
HALF_BOARD_SIZE*(BOARD_SIZE-1)` for black, `tilenum < HALF_BOARD_SIZE`
for red) sets `_isKing`. -/
def Piece.moveToTile (p : Piece) (tile : Int) : Piece :=
  let q : Piece := { p with tilenum := tile }
  if q.isKing then q
  else if (q.color = .black ∧ halfBoardSize * (boardSize - 1) ≤ q.tilenum)
      ∨ (q.color = .red ∧ q.tilenum < halfBoardSize) then
    { q with isKing := true }
  else q

/-- Pointwise update of one occupancy flag (`Tile.setOccupied`). -/
def setOcc (f : Int → Bool) (t : Int) (b : Bool) : Int → Bool :=
  fun u => if u = t then b else f u

/-- Apply a function to the piece at a given list index, leaving the rest
of the list unchanged (in-place mutation of one Python `Piece` object). -/
def modifyIdx : List Piece → Nat → (Piece → Piece) → List Piece
  | [], _, _ => []
  | p :: rest, 0, f => f p :: rest
  | p :: rest, n + 1, f => p :: modifyIdx rest n f

/-- Replace the piece list of the player of color `c`. -/
def GameState.setPieces (s : GameState) : PlayerColor → List Piece → GameState
  | .black, ps => { s with black := ps }
  | .red, ps => { s with red := ps }

/-- State-level `Piece.moveTo` for the piece at index `i` of player `c`:
clear the source tile flag, set the destination tile flag, and update the
piece (position and possible promotion).  An out-of-range index leaves the
state unchanged (the program never calls it that way). -/
def GameState.moveTo (s : GameState) (c : PlayerColor) (i : Nat) (tile : Int) :
    GameState :=
  match (s.piecesOf c)[i]? with
  | none => s
  | some p =>
    let s1 : GameState :=
      { s with occupied := setOcc (setOcc s.occupied p.tilenum false) tile true }
    s1.setPieces c (modifyIdx (s.piecesOf c) i (fun q => q.moveToTile tile))

/-- Remove the first piece of the list whose position is `t`
(`Player.killPiece`: iterate the pieces filtered by position, remove the
first hit, and silently do nothing when there is none). -/
def removeFirstAt : List Piece → Int → List Piece
  | [], _ => []
  | p :: rest, t => if p.tilenum = t then rest else p :: removeFirstAt rest t

/-- State-level `Player.killPiece` for the player of color `c`. -/
def GameState.killPiece (s : GameState) (c : PlayerColor) (t : Int) : GameState :=
  s.setPieces c (removeFirstAt (s.piecesOf c) t)

/-- State-level `Piece.jumpTo` for the piece at index `i` of player `c`:
move to the landing tile, have the opponent kill its piece on the jumped
tile, then clear the jumped tile flag — in exactly that order. -/
def GameState.jumpTo (s : GameState) (c : PlayerColor) (i : Nat) (j : Jump) :
    GameState :=
  let s1 := s.moveTo c i j.endTile
  let s2 := s1.killPiece c.opponent j.jumpedTile
  { s2 with occupied := setOcc s2.occupied j.jumpedTile false }

/-- Aggregate query `Player.canJump`: some owned piece has a legal jump
(Python truthiness of the jump tuple is non-emptiness). -/
def GameState.canJump (s : GameState) (c : PlayerColor) : Bool :=
  (s.piecesOf c).any (fun p => !(p.getJumps s).isEmpty)

/-- Aggregate query `Player.hasMove`: some owned piece has a legal move or
a legal jump. -/
def GameState.hasMove (s : GameState) (c : PlayerColor) : Bool :=
  (s.piecesOf c).any (fun p => !(p.getMoves s).isEmpty || !(p.getJumps s).isEmpty)

/-- Starting tile of a player's pieces in `Player._populate`. -/
def startTileOf : PlayerColor → Int
  | .black => 0
  | .red => halfBoardSize * (halfBoardSize + 1)

/-- Initial piece list of one player (`Player._populate`):
`HALF_BOARD_SIZE*(HALF_BOARD_SIZE-1)` men on consecutive packed indices
from the starting tile. -/
def populatePieces (c : PlayerColor) : List Piece :=
  (List.range (halfBoardSizeN * (halfBoardSizeN - 1))).map
    (fun (k : Nat) =>
      { color := c, tilenum := startTileOf c + (k : Int), isKing := false })

/-- Initial tile occupancy from `Board._populate`: the k-th appended tile
(0-based) starts occupied when the length of the tiles list at the time of
the check, `k+1`, is `<= HALF_BOARD_SIZE*(HALF_BOARD_SIZE-1)` or
`> HALF_BOARD_SIZE*(HALF_BOARD_SIZE+1)`.  Only the `BOARD_SIZE *
HALF_BOARD_SIZE` appended tiles exist; all other indices are modelled as
unoccupied. -/
def initOccupied : Int → Bool := fun t =>
  decide (0 ≤ t ∧ t < boardSize * halfBoardSize)
    && (decide (t + 1 ≤ halfBoardSize * (halfBoardSize - 1))
      || decide (halfBoardSize * (halfBoardSize + 1) < t + 1))

/-- The freshly created game: populated tiles and both players populated
(also the state after each simulation `Board._reset`). -/
def initState : GameState :=
  { occupied := initOccupied
    black := populatePieces .black
    red := populatePieces .red }

/-- Result description of one resolved turn.  The Python `CPUPlayer.takeTurn`
only returns the `"loss"` sentinel or `None`; the constructors record which
action the modelled turn applied (the piece is identified by its index in
the owner's piece list, standing for the Python object reference). -/
inductive TurnLog where
  | loss
  | jumpChain (pieceIdx : Nat) (chain : List Jump)
  | simpleMove (pieceIdx : Nat) (dest : Int)
deriving DecidableEq, Repr

/-- All `(piece, jump)` pairs collected by `CPUPlayer.takeTurn`, in piece
list order, with pieces identified by their index. -/
def jumpPairsAux (s : GameState) : Nat → List Piece → List (Nat × Jump)
  | _, [] => []
  | i, p :: rest => (p.getJumps s).map (fun j => (i, j)) ++ jumpPairsAux s (i + 1) rest

/-- The `(piece, jump)` candidate list of player `c`. -/
def GameState.jumpPairs (s : GameState) (c : PlayerColor) : List (Nat × Jump) :=
  jumpPairsAux s 0 (s.piecesOf c)

/-- All `(piece, move)` pairs collected by `CPUPlayer.takeTurn`. -/
def movePairsAux (s : GameState) : Nat → List Piece → List (Nat × Int)
  | _, [] => []
  | i, p :: rest => (p.getMoves s).map (fun m => (i, m)) ++ movePairsAux s (i + 1) rest

/-- The `(piece, move)` candidate list of player `c`. -/
def GameState.movePairs (s : GameState) (c : PlayerColor) : List (Nat × Int) :=
  movePairsAux s 0 (s.piecesOf c)

/-- King flag of the piece at index `i` of player `c` (`false` when the
index is out of range, which the program never does). -/
def pieceKingAt (s : GameState) (c : PlayerColor) (i : Nat) : Bool :=
  (((s.piecesOf c)[i]?).map Piece.isKing).getD false

/-- The `while jumps := piece.getJumps(board): board = piece.jumpTo(board,
random.choice(jumps))` continuation loop of `CPUPlayer.takeTurn`, for the
piece at index `i`.  `random.choice` is modelled by an oracle giving the
chosen index at every draw (`k` numbers the draws of the turn); `fuel`
bounds the recursion, which the Python loop does by consuming an opponent
piece per iteration.  Returns the final state and the hops taken. -/
def cpuChain (oracle : Nat → Nat) :
    Nat → GameState → PlayerColor → Nat → Nat → GameState × List Jump
  | 0, s, _, _, _ => (s, [])
  | fuel + 1, s, c, i, k =>
    match (s.piecesOf c)[i]? with
    | none => (s, [])
    | some p =>
      let js := p.getJumps s
      if js.isEmpty then (s, [])
      else
        let j := js.getD (oracle k % js.length) ⟨0, 0⟩
        let res := cpuChain oracle fuel (s.jumpTo c i j) c i (k + 1)
        (res.1, j :: res.2)

/-- One turn of `CPUPlayer.takeTurn` for the player of color `c`: report a
loss when no move exists; otherwise, when a jump exists, draw one
`(piece, jump)` pair from the full candidate list, apply it, and — unless
that first hop just crowned the piece — keep jumping with that piece while
it has jumps; when no jump exists, draw one `(piece, move)` pair and apply
the simple move.  (`time.sleep` pacing and the unused `_genScore` call are
presentation/diagnostics and not modelled.) -/
def cpuTakeTurn (s : GameState) (c : PlayerColor) (oracle : Nat → Nat)
    (fuel : Nat) : GameState × TurnLog :=
  if s.hasMove c = false then (s, .loss)
  else if s.canJump c then
    let pairs := s.jumpPairs c
    let ij := pairs.getD (oracle 0 % pairs.length) (0, ⟨0, 0⟩)
    let wasKing := pieceKingAt s c ij.1
    let s1 := s.jumpTo c ij.1 ij.2
    if !(pieceKingAt s1 c ij.1 && !wasKing) then
      let res := cpuChain oracle fuel s1 c ij.1 1
      (res.1, .jumpChain ij.1 (ij.2 :: res.2))
    else (s1, .jumpChain ij.1 [ij.2])
  else
    let pairs := s.movePairs c
    let im := pairs.getD (oracle 0 % pairs.length) (0, 0)
    (s.moveTo c im.1 im.2, .simpleMove im.1 im.2)

/-- Destinations offered to the human player right after selecting a piece
(`Player.takeTurn`, selection branch): when the player can jump, the
selected piece's jump landing tiles are highlighted; only otherwise its
simple moves are. -/
def selectionOffer (s : GameState) (c : PlayerColor) (p : Piece) :
    List Jump ⊕ List Int :=
  if s.canJump c then .inl (p.getJumps s) else .inr (p.getMoves s)

/-- The game loop `Board._begin` in simulation mode (both players CPU):
alternate turns starting from the given color; the loop flips `turnColor`
before testing the `"loss"` status, so the reported winner is the opponent
of the player that could not move.  `oracle n` feeds the random draws of
turn `n`, `cfuel` bounds chain length within a turn and `fuel` bounds the
number of turns (`none` = fuel ran out before the game ended). -/
def beginLoop (oracle : Nat → Nat → Nat) (cfuel : Nat) :
    Nat → GameState → PlayerColor → Nat → Option PlayerColor × GameState
  | 0, s, _, _ => (none, s)
  | fuel + 1, s, c, n =>
    let res := cpuTakeTurn s c (oracle n) cfuel
    if res.2 = .loss then (some c.opponent, res.1)
    else beginLoop oracle cfuel fuel res.1 c.opponent (n + 1)

/-- Number of pieces of the list sitting on tile `t`. -/
def cnt (ps : List Piece) (t : Int) : Nat :=
  (ps.filter (fun p => p.tilenum == t)).length

/-- Number of live pieces (of either player) on tile `t`. -/
def GameState.countAt (s : GameState) (t : Int) : Nat :=
  cnt s.black t + cnt s.red t

/-- The occupancy correspondence: every tile flag is `true` exactly when
one live piece sits there, and no tile ever carries two pieces. -/
def OccInv (s : GameState) : Prop :=
  ∀ t : Int, s.countAt t = if s.occupied t = true then 1 else 0

/-- One engine mutation as the program performs it: `Piece.moveTo` with a
destination drawn from the piece's legal moves, or `Piece.jumpTo` with a
jump drawn from the piece's legal jumps. -/
inductive Step : GameState → GameState → Prop
  | move (s : GameState) (c : PlayerColor) (i : Nat) (p : Piece) (tile : Int)
      (hp : (s.piecesOf c)[i]? = some p) (hm : tile ∈ p.getMoves s) :
      Step s (s.moveTo c i tile)
  | jump (s : GameState) (c : PlayerColor) (i : Nat) (p : Piece) (j : Jump)
      (hp : (s.piecesOf c)[i]? = some p) (hj : j ∈ p.getJumps s) :
      Step s (s.jumpTo c i j)

/-- States reachable from the initial layout by legal moves and jumps. -/
def Reachable (s : GameState) : Prop :=
  Relation.ReflTransGen Step initState s

/-- Test scenario of claim C8: a black piece on tile 9, a red piece on
tile 13, every other tile empty. -/
def c8State : GameState :=
  { occupied := fun t => t == 9 || t == 13
    black := [⟨.black, 9, false⟩]
    red := [⟨.red, 13, false⟩] }

/-- Scenario exercising the CPU continuation loop: the black man on 13
jumps 17 to reach 20, jumps 25 to reach 29 — crowning there — and the
continuation loop keeps going, jumping 26 to land on 22. -/
def c4State : GameState :=
  { occupied := fun t => t == 13 || t == 17 || t == 25 || t == 26
    black := [⟨.black, 13, false⟩]
    red := [⟨.red, 17, false⟩, ⟨.red, 25, false⟩, ⟨.red, 26, false⟩] }

/-- State with no black pieces at all, used to witness C6. -/
def noBlackState : GameState :=
  { occupied := initOccupied
    black := []
    red := populatePieces .red }

/-- Edge-tile condition exactly as the claim spells it for N = 8: packed
index below 4, at least 28, or congruent 0 or 7 modulo 8 (written from the
specification for comparison with `isEdgeTile`). -/
def claimIsEdge (i : Int) : Bool :=
  decide (i < 4) || decide (28 ≤ i) || (i.emod 8 == 0) || (i.emod 8 == 7)

/-- Packed row index of a tile (spec-side `row`). -/
def packedRow (t : Int) : Int := t.ediv 4

/-- Geometric column of a packed tile index: even rows sit on even columns
0,2,4,6 and odd rows on odd columns 1,3,5,7 (spec-side `column`). -/
def packedCol (t : Int) : Int := 2 * (t.emod 4) + (packedRow t).emod 2

/-- The candidate jump as the claim describes it: direction read off from
packed row/column comparison, with the fixed landing offsets t-7
(down-right), t+9 (up-right), t-9 (down-left), t+7 (up-left) — written
from the specification for comparison with `mkJump`. -/
def claimJumpFor (t n : Int) : Jump :=
  if packedCol t < packedCol n then
    if packedRow n < packedRow t then ⟨n, t - 7⟩ else ⟨n, t + 9⟩
  else
    if packedRow n < packedRow t then ⟨n, t - 9⟩ else ⟨n, t + 7⟩

/-- The jump set exactly as the claim describes it: candidate jumps over
diagonal neighbors occupied by an opponent piece, with the claim's landing
offsets, kept when the jumped tile is not an edge tile and the landing
tile is unoccupied (written from the specification for comparison with
`Piece.getJumps`). -/
def claimJumps (s : GameState) (p : Piece) : List Jump :=
  ((p.getPosMoves.filter (fun n => decide (n ∈ s.oppTiles p.color))).map
      (claimJumpFor p.tilenum)).filter
    (fun j => !claimIsEdge j.jumpedTile && !(s.occupied j.endTile))

/-- Ownership invariant implicit in the Python objects: every piece in a
player's list was constructed with that player's color. -/
def ColorOk (s : GameState) : Prop :=
  ∀ c : PlayerColor, ∀ p ∈ s.piecesOf c, p.color = c

/-- Helper: membership in `removeFirstAt` implies membership in the
original list (killing a piece never alters the surviving pieces). -/
theorem mem_removeFirstAt {ps : List Piece} {t : Int} {q : Piece}
    (h : q ∈ removeFirstAt ps t) : q ∈ ps := by
  induction ps with
  | nil => exact absurd h (List.not_mem_nil q)
  | cons p rest ih =>
    by_cases hp : p.tilenum = t
    · simp only [removeFirstAt, if_pos hp] at h
      exact List.mem_cons_of_mem _ h
    · simp only [removeFirstAt, if_neg hp, List.mem_cons] at h
      rcases h with h | h
      · exact h ▸ List.mem_cons_self _ _
      · exact List.mem_cons_of_mem _ (ih h)

/-- C5: a piece's king flag after `Piece.moveTo` is its old flag or-ed with
the promotion condition (black reaching packed index 28 or above, red
reaching an index below 4): the flag becomes true exactly when a non-king
piece is placed in the opponent back row, a set flag is never cleared, and
a move of an existing king changes only its position.  `killPiece` never
edits a surviving piece, so no operation un-kings a piece. -/
theorem c5_king_promotion :
    (∀ (p : Piece) (tile : Int),
      (p.moveToTile tile).isKing =
        (p.isKing || (decide (p.color = .black) && decide ((28:Int) ≤ tile))
          || (decide (p.color = .red) && decide (tile < (4:Int)))) ∧
      (p.moveToTile tile).tilenum = tile ∧
      (p.moveToTile tile).color = p.color ∧
      (p.isKing = true → p.moveToTile tile = { p with tilenum := tile })) ∧
    (∀ (ps : List Piece) (t : Int) (q : Piece), q ∈ removeFirstAt ps t → q ∈ ps) := by
  constructor
  · intro p tile
    rcases p with ⟨c, tn, k⟩
    cases k
    · cases c <;>
        · simp only [Piece.moveToTile]
          norm_num
          constructor
          · by_cases h : (28:Int) ≤ tile <;> by_cases h2 : tile < (4:Int) <;>
              simp [h, h2]
          · split <;> exact ⟨rfl, rfl⟩
    · simp [Piece.moveToTile]
  · intro ps t q h
    exact mem_removeFirstAt h

/-- C5 witness: a red man moved to tile 2 is crowned; a black king moved to
tile 5 stays a king and is otherwise unchanged. -/
theorem c5_king_promotion_witness :
    (Piece.moveToTile ⟨.red, 6, false⟩ 2).isKing = true ∧
    Piece.moveToTile ⟨.black, 29, true⟩ 5 = ⟨.black, 5, true⟩ ∧
    (⟨.red, 7, false⟩ : Piece) ∈ ([⟨.red, 3, false⟩, ⟨.red, 7, false⟩] : List Piece) := by
  refine ⟨?_, ?_, ?_⟩
  · rw [(c5_king_promotion.1 ⟨.red, 6, false⟩ 2).1]; decide
  · exact (c5_king_promotion.1 ⟨.black, 29, true⟩ 5).2.2.2 rfl
  · exact c5_king_promotion.2 [⟨.red, 3, false⟩, ⟨.red, 7, false⟩] 3 ⟨.red, 7, false⟩ (by decide)

/-- C9 counterexample: red owns no piece on tile 5 in the initial layout,
yet `killPiece` succeeds silently as a plain no-op — the piece list (and
the whole state) is unchanged and no error of any kind is signalled,
contradicting the fail-fast behavior the claim asserts. -/
theorem c9_counterexample :
    (∀ p ∈ initState.red, p.tilenum ≠ 5) ∧
    removeFirstAt initState.red 5 = initState.red ∧
    initState.killPiece .red 5 = initState := by
  refine ⟨by decide, by decide, ?_⟩
  show GameState.setPieces initState .red (removeFirstAt initState.red 5) = initState
  have h : removeFirstAt initState.red 5 = initState.red := by decide
  rw [h]
  rfl

/-- C9 amended: `killPiece` at a tile where the player owns no piece is a
silent no-op — the piece list and the whole game state are returned
unchanged, with no failure signalled. -/
theorem c9_amended :
    ∀ (s : GameState) (c : PlayerColor) (t : Int),
      (∀ p ∈ s.piecesOf c, p.tilenum ≠ t) → s.killPiece c t = s := by
  have hlist : ∀ (ps : List Piece) (t : Int),
      (∀ p ∈ ps, p.tilenum ≠ t) → removeFirstAt ps t = ps := by
    intro ps t h
    induction ps with
    | nil => rfl
    | cons p rest ih =>
      have hp : p.tilenum ≠ t := h p (List.mem_cons_self _ _)
      simp only [removeFirstAt, if_neg hp]
      rw [ih (fun q hq => h q (List.mem_cons_of_mem _ hq))]
  intro s c t h
  show GameState.setPieces s c (removeFirstAt (s.piecesOf c) t) = s
  rw [hlist _ _ h]
  cases c <;> rfl

/-- C9 amended witness: killing at empty tile 14 of the initial black
player changes nothing. -/
theorem c9_amended_witness :
    (∀ p ∈ initState.piecesOf .black, p.tilenum ≠ 14) ∧
    initState.killPiece .black 14 = initState :=
  ⟨by decide, c9_amended initState .black 14 (by decide)⟩

/-- C7: in the freshly populated game the occupied tiles are exactly the
packed indices 0–11 (the twelve black men, in order) and 20–31 (the twelve
red men); every piece starts as a man, and the middle rows 12–19 are
unoccupied. -/
theorem c7_initial_layout :
    (∀ t : Int, initState.occupied t = true ↔ (0 ≤ t ∧ t < 12) ∨ (20 ≤ t ∧ t < 32)) ∧
    initState.black.map Piece.tilenum = [0, 1, 2, 3, 4, 5, 6, 7, 8, 9, 10, 11] ∧
    initState.red.map Piece.tilenum =
      [20, 21, 22, 23, 24, 25, 26, 27, 28, 29, 30, 31] ∧
    (∀ p ∈ initState.black ++ initState.red, p.isKing = false) ∧
    (∀ t : Int, 12 ≤ t → t < 20 → initState.occupied t = false) := by
  have hocc : ∀ t : Int,
      initState.occupied t = true ↔ (0 ≤ t ∧ t < 12) ∨ (20 ≤ t ∧ t < 32) := by
    intro t
    show initOccupied t = true ↔ _
    simp only [initOccupied, Bool.and_eq_true, Bool.or_eq_true, decide_eq_true_eq,
      show boardSize * halfBoardSize = 32 from rfl,
      show halfBoardSize * (halfBoardSize - 1) = 12 from rfl,
      show halfBoardSize * (halfBoardSize + 1) = 20 from rfl]
    constructor
    · rintro ⟨h1, h2⟩; omega
    · intro h; omega
  refine ⟨hocc, by decide, by decide, by decide, ?_⟩
  intro t h1 h2
  cases h : initState.occupied t with
  | false => rfl
  | true =>
    have := (hocc t).1 h
    omega

/-- C7 witness: tile 11 starts occupied, tile 15 (a middle-row tile) does
not. -/
theorem c7_initial_layout_witness :
    (initState.occupied 11 = true ↔
      ((0:Int) ≤ 11 ∧ (11:Int) < 12) ∨ ((20:Int) ≤ 11 ∧ (11:Int) < 32)) ∧
    initState.occupied 15 = false :=
  ⟨c7_initial_layout.1 11, c7_initial_layout.2.2.2.2 15 (by decide) (by decide)⟩

/-- C8: in the scenario with a black piece on 9 and a red piece on 13 with
18 empty, black's jump generation yields exactly the jump capturing 13 and
landing on 18; applying it removes red's piece from its list and from
tile 13's occupancy, moves the black piece to 18, and leaves tile 9
unoccupied. -/
theorem c8_scenario :
    Piece.getJumps ⟨.black, 9, false⟩ c8State = [⟨13, 18⟩] ∧
    (c8State.jumpTo .black 0 ⟨13, 18⟩).black = [⟨.black, 18, false⟩] ∧
    (c8State.jumpTo .black 0 ⟨13, 18⟩).red = [] ∧
    (c8State.jumpTo .black 0 ⟨13, 18⟩).occupied 13 = false ∧
    (c8State.jumpTo .black 0 ⟨13, 18⟩).occupied 9 = false ∧
    (c8State.jumpTo .black 0 ⟨13, 18⟩).occupied 18 = true := by
  decide

/-- C4: concrete run of the CPU continuation loop.  Black's single man
(not a king) chains three hops: it captures 17 landing on 20, captures 25
landing on 29 — packed index 29 is in black's promotion row, so this hop
crowns it — and the `while` continuation loop nevertheless takes a third
hop, capturing 26 and landing on 22.  Crowning mid-chain therefore does
not end the CPU chain: only the first hop is guarded by the king check. -/
theorem c4_cpu_crowning_continuation :
    pieceKingAt c4State .black 0 = false ∧
    pieceKingAt (c4State.jumpTo .black 0 ⟨17, 20⟩) .black 0 = false ∧
    pieceKingAt ((c4State.jumpTo .black 0 ⟨17, 20⟩).jumpTo .black 0 ⟨25, 29⟩)
      .black 0 = true ∧
    (cpuTakeTurn c4State .black (fun _ => 0) 5).2 =
      .jumpChain 0 [⟨17, 20⟩, ⟨25, 29⟩, ⟨26, 22⟩] ∧
    ((cpuTakeTurn c4State .black (fun _ => 0) 5).1.piecesOf .black) =
      [⟨.black, 22, true⟩] := by
  decide

/-- Helper: a CPU player whose `hasMove` is false reports its loss and
leaves the state untouched. -/
theorem cpuTakeTurn_of_no_move (s : GameState) (c : PlayerColor)
    (oracle : Nat → Nat) (fuel : Nat) (h : s.hasMove c = false) :
    cpuTakeTurn s c oracle fuel = (s, .loss) := by
  simp [cpuTakeTurn, h]

/-- C6: a player with `hasMove = false` at the start of its turn loses on
the spot — `takeTurn` returns the loss sentinel with the state unchanged —
and the game loop then reports the opposite color as the winner; a player
with no pieces left always has `hasMove = false`. -/
theorem c6_no_move_loses :
    (∀ (s : GameState) (c : PlayerColor) (oracle : Nat → Nat) (fuel : Nat),
      s.hasMove c = false → cpuTakeTurn s c oracle fuel = (s, .loss)) ∧
    (∀ (oracle : Nat → Nat → Nat) (cfuel fuel : Nat) (s : GameState)
      (c : PlayerColor) (n : Nat),
      s.hasMove c = false →
      beginLoop oracle cfuel (fuel + 1) s c n = (some c.opponent, s)) ∧
    (∀ (s : GameState) (c : PlayerColor), s.piecesOf c = [] → s.hasMove c = false) := by
  refine ⟨cpuTakeTurn_of_no_move, ?_, ?_⟩
  · intro oracle cfuel fuel s c n h
    simp [beginLoop, cpuTakeTurn_of_no_move s c (oracle n) cfuel h]
  · intro s c h
    simp [GameState.hasMove, h]

/-- C6 witness: with zero black pieces, black's turn is an immediate loss
leaving the state unchanged, and the game loop declares red the winner. -/
theorem c6_no_move_loses_witness :
    noBlackState.hasMove .black = false ∧
    cpuTakeTurn noBlackState .black (fun _ => 0) 3 = (noBlackState, .loss) ∧
    beginLoop (fun _ _ => 0) 3 1 noBlackState .black 0 = (some .red, noBlackState) := by
  have h0 : noBlackState.piecesOf .black = [] := rfl
  have h1 : noBlackState.hasMove .black = false := c6_no_move_loses.2.2 _ _ h0
  exact ⟨h1, c6_no_move_loses.1 noBlackState .black (fun _ => 0) 3 h1,
    c6_no_move_loses.2.1 (fun _ _ => 0) 3 0 noBlackState .black 0 h1⟩

/-- Helper: when some piece of the list has a jump, the collected
`(piece, jump)` pair list is non-empty. -/
theorem jumpPairsAux_ne_nil {s : GameState} {ps : List Piece} (base : Nat)
    (h : ps.any (fun p => !(p.getJumps s).isEmpty) = true) :
    jumpPairsAux s base ps ≠ [] := by
  induction ps generalizing base with
  | nil => simp at h
  | cons p rest ih =>
    simp only [List.any_cons, Bool.or_eq_true] at h
    simp only [jumpPairsAux]
    intro hc
    rcases List.append_eq_nil.mp hc with ⟨h1, h2⟩
    rcases h with h | h
    · rw [List.map_eq_nil_iff] at h1
      rw [h1] at h
      simp at h
    · exact ih (base + 1) h h2

/-- Helper: every collected `(piece, jump)` pair names a piece index of the
list and one of that piece's legal jumps. -/
theorem mem_jumpPairsAux {s : GameState} {ps : List Piece} {base i : Nat}
    {j : Jump} (h : (i, j) ∈ jumpPairsAux s base ps) :
    ∃ (k : Nat) (p : Piece), ps[k]? = some p ∧ i = base + k ∧ j ∈ p.getJumps s := by
  induction ps generalizing base with
  | nil => simp [jumpPairsAux] at h
  | cons p rest ih =>
    simp only [jumpPairsAux, List.mem_append, List.mem_map] at h
    rcases h with ⟨j0, hj0, he⟩ | h
    · refine ⟨0, p, by simp, ?_, ?_⟩
      · have := congrArg Prod.fst he
        simpa using this.symm
      · have := congrArg Prod.snd he
        simp at this
        exact this ▸ hj0
    · rcases ih h with ⟨k, q, hk, hi, hjq⟩
      exact ⟨k + 1, q, by simpa using hk, by omega, hjq⟩

/-- Helper: when some piece of the list has a simple move, the collected
`(piece, move)` pair list is non-empty. -/
theorem movePairsAux_ne_nil {s : GameState} {ps : List Piece} (base : Nat)
    (h : ps.any (fun p => !(p.getMoves s).isEmpty) = true) :
    movePairsAux s base ps ≠ [] := by
  induction ps generalizing base with
  | nil => simp at h
  | cons p rest ih =>
    simp only [List.any_cons, Bool.or_eq_true] at h
    simp only [movePairsAux]
    intro hc
    rcases List.append_eq_nil.mp hc with ⟨h1, h2⟩
    rcases h with h | h
    · rw [List.map_eq_nil_iff] at h1
      rw [h1] at h
      simp at h
    · exact ih (base + 1) h h2

/-- Helper: every collected `(piece, move)` pair names a piece index of the
list and one of that piece's legal moves. -/
theorem mem_movePairsAux {s : GameState} {ps : List Piece} {base i : Nat}
    {m : Int} (h : (i, m) ∈ movePairsAux s base ps) :
    ∃ (k : Nat) (p : Piece), ps[k]? = some p ∧ i = base + k ∧ m ∈ p.getMoves s := by
  induction ps generalizing base with
  | nil => simp [movePairsAux] at h
  | cons p rest ih =>
    simp only [movePairsAux, List.mem_append, List.mem_map] at h
    rcases h with ⟨m0, hm0, he⟩ | h
    · refine ⟨0, p, by simp, ?_, ?_⟩
      · have := congrArg Prod.fst he
        simpa using this.symm
      · have := congrArg Prod.snd he
        simp at this
        exact this ▸ hm0
    · rcases ih h with ⟨k, q, hk, hi, hmq⟩
      exact ⟨k + 1, q, by simpa using hk, by omega, hmq⟩

/-- Helper: `random.choice` modelled by an oracle index always picks an
element of a non-empty list. -/
theorem getD_mod_mem {α : Type} {l : List α} (m : Nat) (d : α)
    (h : l ≠ []) : l.getD (m % l.length) d ∈ l := by
  have hl : 0 < l.length := List.length_pos.mpr h
  have hm : m % l.length < l.length := Nat.mod_lt _ hl
  rw [List.getD_eq_getElem l d hm]
  exact List.getElem_mem hm

/-- C3: forced-capture precedence in turn resolution.  When the active
player can jump at the start of the turn, the CPU turn applies a jump: the
`(piece, jump)` pair is drawn by the random choice from the complete
candidate list over all owned pieces (so the moving piece has a legal
jump), the reported action is a jump chain, and no simple move is applied
(the uniform distribution of `random.choice` is modelled by an arbitrary
oracle index into that full list); the human selection branch offers only
jump destinations for the selected piece.  A simple move is applied only
on turns where `canJump` is false, and then it is drawn from the complete
`(piece, move)` list. -/
theorem c3_forced_capture :
    (∀ (s : GameState) (c : PlayerColor) (oracle : Nat → Nat) (fuel : Nat),
      s.hasMove c = true → s.canJump c = true →
      ∃ (i : Nat) (j : Jump) (rest : List Jump),
        (s.jumpPairs c).getD (oracle 0 % (s.jumpPairs c).length) (0, ⟨0, 0⟩) = (i, j) ∧
        (cpuTakeTurn s c oracle fuel).2 = .jumpChain i (j :: rest) ∧
        (i, j) ∈ s.jumpPairs c ∧
        ∃ p, (s.piecesOf c)[i]? = some p ∧ j ∈ p.getJumps s) ∧
    (∀ (s : GameState) (c : PlayerColor) (oracle : Nat → Nat) (fuel : Nat),
      s.hasMove c = true → s.canJump c = false →
      ∃ (i : Nat) (m : Int),
        (cpuTakeTurn s c oracle fuel).2 = .simpleMove i m ∧
        (i, m) ∈ s.movePairs c ∧
        ∃ p, (s.piecesOf c)[i]? = some p ∧ m ∈ p.getMoves s) ∧
    (∀ (s : GameState) (c : PlayerColor) (p : Piece),
      s.canJump c = true → selectionOffer s c p = .inl (p.getJumps s)) := by
  refine ⟨?_, ?_, ?_⟩
  · intro s c oracle fuel h1 h2
    have h2' : (s.piecesOf c).any (fun p => !(p.getJumps s).isEmpty) = true := h2
    have hne : s.jumpPairs c ≠ [] := jumpPairsAux_ne_nil 0 h2'
    rcases hpr : (s.jumpPairs c).getD (oracle 0 % (s.jumpPairs c).length)
        ((0 : Nat), (⟨0, 0⟩ : Jump)) with ⟨i, j⟩
    have hmem : ((i, j) : Nat × Jump) ∈ s.jumpPairs c := by
      rw [← hpr]
      exact getD_mod_mem (oracle 0) _ hne
    obtain ⟨k, p, hk, hik, hjp⟩ := mem_jumpPairsAux hmem
    have hk' : (s.piecesOf c)[i]? = some p := by
      rw [hik, Nat.zero_add]
      exact hk
    refine ⟨i, j, ?_⟩
    simp only [cpuTakeTurn, h1, h2, hpr, Bool.true_eq_false, if_false, if_true]
    split
    · exact ⟨_, trivial, rfl, hmem, p, hk', hjp⟩
    · exact ⟨[], trivial, rfl, hmem, p, hk', hjp⟩
  · intro s c oracle fuel h1 h2
    have h2' : (s.piecesOf c).any (fun p => !(p.getJumps s).isEmpty) = false := h2
    have hmv : (s.piecesOf c).any (fun p => !(p.getMoves s).isEmpty) = true := by
      have h1' : (s.piecesOf c).any
          (fun p => !(p.getMoves s).isEmpty || !(p.getJumps s).isEmpty) = true := h1
      rw [List.any_eq_true] at h1' ⊢
      obtain ⟨p, hp, hcond⟩ := h1'
      refine ⟨p, hp, ?_⟩
      rw [List.any_eq_false] at h2'
      have hjn := h2' p hp
      simp only [Bool.or_eq_true] at hcond
      rcases hcond with h | h
      · exact h
      · exact absurd h hjn
    have hne : s.movePairs c ≠ [] := movePairsAux_ne_nil 0 hmv
    rcases hpr : (s.movePairs c).getD (oracle 0 % (s.movePairs c).length)
        ((0 : Nat), (0 : Int)) with ⟨i, m⟩
    have hmem : ((i, m) : Nat × Int) ∈ s.movePairs c := by
      rw [← hpr]
      exact getD_mod_mem (oracle 0) _ hne
    obtain ⟨k, p, hk, hik, hmp⟩ := mem_movePairsAux hmem
    have hk' : (s.piecesOf c)[i]? = some p := by
      rw [hik, Nat.zero_add]
      exact hk
    refine ⟨i, m, ?_⟩
    simp only [cpuTakeTurn, h1, h2, hpr, Bool.true_eq_false, if_false, if_true]
    exact ⟨rfl, hmem, p, hk', hmp⟩
  · intro s c p h
    simp [selectionOffer, h]

/-- C3 witness: in the C8 scenario black can jump, and the CPU turn indeed
resolves to a jump chain drawn from the candidate pair list. -/
theorem c3_forced_capture_witness :
    (c8State.hasMove .black = true ∧ c8State.canJump .black = true) ∧
    (∃ (i : Nat) (j : Jump) (rest : List Jump),
      (c8State.jumpPairs .black).getD
        ((fun _ => 0) 0 % (c8State.jumpPairs .black).length) (0, ⟨0, 0⟩) = (i, j) ∧
      (cpuTakeTurn c8State .black (fun _ => 0) 3).2 = .jumpChain i (j :: rest) ∧
      (i, j) ∈ c8State.jumpPairs .black ∧
      ∃ p, (c8State.piecesOf .black)[i]? = some p ∧ j ∈ p.getJumps c8State) :=
  ⟨⟨by decide, by decide⟩,
    c3_forced_capture.1 c8State .black (fun _ => 0) 3 (by decide) (by decide)⟩

/-- Helper: the code's edge test agrees everywhere with the claim's
spelled-out condition. -/
theorem isEdgeTile_eq_claim (t : Int) : isEdgeTile t = claimIsEdge t := rfl

/-- Helper: on the 32 playable tiles the code's pixel-coordinate direction
comparison produces exactly the claim's row/column directional jump. -/
theorem mkJump_eq_claim_nat :
    ∀ t : Nat, t < 32 → ∀ n : Nat, n < 32 →
      mkJump (t : Int) (n : Int) = claimJumpFor (t : Int) (n : Int) := by
  decide

/-- Helper: integer version of `mkJump_eq_claim_nat`. -/
theorem mkJump_eq_claim {t n : Int} (ht0 : 0 ≤ t) (ht : t < 32)
    (hn0 : 0 ≤ n) (hn : n < 32) : mkJump t n = claimJumpFor t n := by
  lift t to ℕ using ht0
  lift n to ℕ using hn0
  exact mkJump_eq_claim_nat t (by exact_mod_cast ht) n (by exact_mod_cast hn)

/-- C2: for a piece on a playable tile of a board whose opponent pieces
are on playable tiles, `Piece.getJumps` returns exactly the jump list the
claim describes — candidates over opponent-occupied diagonal neighbors
with the fixed directional landing offsets, filtered by the non-edge
jumped tile and unoccupied landing tile conditions — and the code's edge
test is exactly the claim's arithmetic condition. -/
theorem c2_getJumps_spec (s : GameState) (p : Piece)
    (ht : 0 ≤ p.tilenum ∧ p.tilenum < 32)
    (hopp : ∀ q ∈ s.piecesOf p.color.opponent, 0 ≤ q.tilenum ∧ q.tilenum < 32) :
    p.getJumps s = claimJumps s p ∧ (∀ i : Int, isEdgeTile i = claimIsEdge i) := by
  refine ⟨?_, fun i => isEdgeTile_eq_claim i⟩
  unfold Piece.getJumps claimJumps
  have hmap : (p.getPosMoves.filter
        (fun n => decide (n ∈ s.oppTiles p.color))).map (mkJump p.tilenum) =
      (p.getPosMoves.filter
        (fun n => decide (n ∈ s.oppTiles p.color))).map (claimJumpFor p.tilenum) := by
    apply List.map_congr_left
    intro n hn
    have hmemo : n ∈ s.oppTiles p.color := by
      have := (List.mem_filter.mp hn).2
      exact of_decide_eq_true this
    obtain ⟨q, hq, hqn⟩ := List.mem_map.mp hmemo
    have hb := hopp q hq
    exact mkJump_eq_claim ht.1 ht.2 (hqn ▸ hb.1) (hqn ▸ hb.2)
  rw [hmap]
  apply List.filter_congr
  intro j hj
  rw [isEdgeTile_eq_claim]

/-- C2 witness: the C8 scenario piece satisfies the bounds hypotheses and
its generated jumps coincide with the claim's description. -/
theorem c2_getJumps_spec_witness :
    ((0:Int) ≤ (9:Int) ∧ (9:Int) < 32) ∧
    (Piece.getJumps ⟨.black, 9, false⟩ c8State =
        claimJumps c8State ⟨.black, 9, false⟩ ∧
      (∀ i : Int, isEdgeTile i = claimIsEdge i)) :=
  ⟨by decide, c2_getJumps_spec c8State ⟨.black, 9, false⟩ (by decide) (by decide)⟩

/-- Helper: the jumped tile recorded in a generated jump is the neighbor it
was built from. -/
theorem mkJump_jumpedTile (t n : Int) : (mkJump t n).jumpedTile = n := by
  unfold mkJump
  split <;> split <;> rfl

/-- Helper: bounded enumeration behind C10 — for every piece on a playable
tile that is not an unpromoted man sitting in its own promotion row, all
candidate neighbors are playable tiles, and whenever a candidate neighbor
is not an edge tile the landing index computed for jumping it is a
playable tile as well. -/
theorem c10_nat_neighbors :
    ∀ t : Nat, t < 32 → ∀ (c : PlayerColor) (k : Bool),
      (k = false → ¬((c = .black ∧ 28 ≤ (t : Int)) ∨ (c = .red ∧ (t : Int) < 4))) →
      ∀ n ∈ (Piece.mk c (t : Int) k).getPosMoves, 0 ≤ n ∧ n < 32 := by
  decide

/-- Helper: bounded enumeration behind C10, landing part — whenever a
candidate neighbor is not an edge tile, the landing index computed for
jumping it is a playable tile. -/
theorem c10_nat_landing :
    ∀ t : Nat, t < 32 → ∀ (c : PlayerColor) (k : Bool),
      ∀ n ∈ (Piece.mk c (t : Int) k).getPosMoves, isEdgeTile n = false →
        0 ≤ (mkJump (t : Int) n).endTile ∧ (mkJump (t : Int) n).endTile < 32 := by
  decide

/-- C10: move and jump generation touch only playable tile indices.  For a
piece on a playable tile that — if a man — is not already in its own
promotion row, every candidate neighbor produced by `_getPosMoves` lies in
[0, 32) (so `getMoves` and the neighbor scan of `getJumps` stay in range),
and for every candidate neighbor that passes the non-edge test of the
jumped tile the computed landing index lies in [0, 32) as well; hence in
any state whose opponent pieces are on playable tiles, every jump produced
by `getJumps` has both its tiles in range — the edge-tile capture
restriction doubles as the bounds guard for the landing-tile dereference,
which the code performs only after the edge test. -/
theorem c10_in_range (color : PlayerColor) (king : Bool) (t : Int)
    (ht : 0 ≤ t ∧ t < 32)
    (hprom : king = false → ¬((color = .black ∧ 28 ≤ t) ∨ (color = .red ∧ t < 4))) :
    (∀ n ∈ (Piece.mk color t king).getPosMoves, 0 ≤ n ∧ n < 32) ∧
    (∀ n ∈ (Piece.mk color t king).getPosMoves, isEdgeTile n = false →
      0 ≤ (mkJump t n).endTile ∧ (mkJump t n).endTile < 32) ∧
    (∀ s : GameState, ∀ j ∈ (Piece.mk color t king).getJumps s,
      (0 ≤ j.jumpedTile ∧ j.jumpedTile < 32) ∧
      (0 ≤ j.endTile ∧ j.endTile < 32)) := by
  obtain ⟨ht0, ht32⟩ := ht
  lift t to ℕ using ht0
  have hb1 := c10_nat_neighbors t (by exact_mod_cast ht32) color king hprom
  have hb2 := c10_nat_landing t (by exact_mod_cast ht32) color king
  refine ⟨hb1, hb2, ?_⟩
  intro s j hj
  unfold Piece.getJumps at hj
  have hj2 := List.mem_filter.mp hj
  obtain ⟨n, hn, hje⟩ := List.mem_map.mp hj2.1
  have hnpos : n ∈ (Piece.mk color (t : Int) king).getPosMoves :=
    (List.mem_filter.mp hn).1
  have hedge : isEdgeTile j.jumpedTile = false := by
    have := hj2.2
    simp only [Bool.and_eq_true, Bool.not_eq_true'] at this
    exact this.1
  have hjn : j.jumpedTile = n := by
    rw [← hje]
    exact mkJump_jumpedTile _ _
  have hnedge : isEdgeTile n = false := hjn ▸ hedge
  have hend := hb2 n hnpos hnedge
  have hnb := hb1 n hnpos
  constructor
  · rw [hjn]
    exact hnb
  · rw [← hje]
    exact hend

/-- C10 witness: the non-edge neighbors of the black man on tile 9 all
yield in-range landing indices, and its one legal jump in the C8 scenario
has both tiles on the board. -/
theorem c10_in_range_witness :
    (((0:Int) ≤ (9:Int) ∧ (9:Int) < 32) ∧
      (false = false →
        ¬((PlayerColor.black = .black ∧ (28:Int) ≤ 9) ∨
          (PlayerColor.black = .red ∧ (9:Int) < 4)))) ∧
    (∀ n ∈ (Piece.mk .black (9:Int) false).getPosMoves, 0 ≤ n ∧ n < 32) ∧
    (∀ j ∈ (Piece.mk .black (9:Int) false).getJumps c8State,
      (0 ≤ j.jumpedTile ∧ j.jumpedTile < 32) ∧ (0 ≤ j.endTile ∧ j.endTile < 32)) := by
  have h := c10_in_range .black false 9 (by decide) (by decide)
  exact ⟨⟨by decide, by decide⟩, h.1, h.2.2 c8State⟩

/-- Helper: piece count of a cons cell. -/
theorem cnt_cons (p : Piece) (ps : List Piece) (t : Int) :
    cnt (p :: ps) t = (if p.tilenum = t then 1 else 0) + cnt ps t := by
  by_cases h : p.tilenum = t
  · simp [cnt, List.filter_cons, h]
    omega
  · simp [cnt, List.filter_cons, h]

/-- Helper: piece count of an appended list. -/
theorem cnt_append (l1 l2 : List Piece) (t : Int) :
    cnt (l1 ++ l2) t = cnt l1 t + cnt l2 t := by
  simp [cnt, List.filter_append]

/-- Helper: updating the piece at index `i` trades its old position for its
new one in the per-tile piece counts, additively. -/
theorem cnt_modifyIdx {ps : List Piece} {i : Nat} {p : Piece}
    (f : Piece → Piece) (hp : ps[i]? = some p) (t : Int) :
    cnt (modifyIdx ps i f) t + (if p.tilenum = t then 1 else 0) =
      cnt ps t + (if (f p).tilenum = t then 1 else 0) := by
  induction ps generalizing i with
  | nil => simp at hp
  | cons q rest ih =>
    cases i with
    | zero =>
      simp only [List.getElem?_cons_zero, Option.some_inj] at hp
      subst hp
      simp only [modifyIdx, cnt_cons]
      omega
    | succ n =>
      simp only [List.getElem?_cons_succ] at hp
      simp only [modifyIdx, cnt_cons]
      have := ih hp
      omega

/-- Helper: removing the first piece at position `t` lowers the count at
`t` by one and leaves every other per-tile count unchanged. -/
theorem cnt_removeFirstAt {ps : List Piece} {t : Int} (h : cnt ps t ≠ 0)
    (u : Int) :
    cnt (removeFirstAt ps t) u + (if t = u then 1 else 0) = cnt ps u := by
  induction ps with
  | nil => simp [cnt] at h
  | cons q rest ih =>
    by_cases hq : q.tilenum = t
    · simp only [removeFirstAt, cnt_cons, hq, eq_self_iff_true, if_true]
      omega
    · have hrest : cnt rest t ≠ 0 := by
        rw [cnt_cons] at h
        simp [hq] at h
        exact h
      simp only [removeFirstAt, if_neg hq, cnt_cons]
      have := ih hrest
      omega

/-- Helper: a piece found at an index contributes to the count at its
position. -/
theorem cnt_pos_of_getElem {ps : List Piece} {i : Nat} {p : Piece}
    (hp : ps[i]? = some p) : cnt ps p.tilenum ≠ 0 := by
  induction ps generalizing i with
  | nil => simp at hp
  | cons q rest ih =>
    cases i with
    | zero =>
      simp only [List.getElem?_cons_zero, Option.some_inj] at hp
      subst hp
      rw [cnt_cons]
      simp
    | succ n =>
      simp only [List.getElem?_cons_succ] at hp
      rw [cnt_cons]
      have := ih hp
      omega

/-- Helper: a piece of the list contributes to the count at its position. -/
theorem cnt_pos_of_mem {ps : List Piece} {q : Piece} (hq : q ∈ ps) :
    cnt ps q.tilenum ≠ 0 := by
  induction ps with
  | nil => simp at hq
  | cons r rest ih =>
    rw [cnt_cons]
    rcases List.mem_cons.mp hq with rfl | hq2
    · simp
    · have := ih hq2
      omega

/-- Helper: the opponent of a color is never the color itself. -/
theorem opponent_ne (c : PlayerColor) : c.opponent ≠ c := by
  cases c <;> decide

/-- Helper: `setPieces` stores the new list for the named player. -/
theorem piecesOf_setPieces_self (s : GameState) (c : PlayerColor)
    (ps : List Piece) : (s.setPieces c ps).piecesOf c = ps := by
  cases c <;> rfl

/-- Helper: `setPieces` leaves the other player's list alone. -/
theorem piecesOf_setPieces_other (s : GameState) {c c' : PlayerColor}
    (h : c' ≠ c) (ps : List Piece) :
    (s.setPieces c ps).piecesOf c' = s.piecesOf c' := by
  cases c <;> cases c' <;> first | rfl | exact absurd rfl h

/-- Helper: `setPieces` does not touch the tile flags. -/
theorem occupied_setPieces (s : GameState) (c : PlayerColor)
    (ps : List Piece) : (s.setPieces c ps).occupied = s.occupied := by
  cases c <;> rfl

/-- Helper: updating the occupancy function does not touch the piece
lists. -/
theorem piecesOf_withOccupied (s : GameState) (f : Int → Bool)
    (c : PlayerColor) :
    (GameState.mk f s.black s.red).piecesOf c = s.piecesOf c := by
  cases c <;> rfl

/-- Helper: total piece count split as own pieces plus opponent pieces. -/
theorem countAt_split (s : GameState) (c : PlayerColor) (t : Int) :
    s.countAt t = cnt (s.piecesOf c) t + cnt (s.piecesOf c.opponent) t := by
  cases c
  · rfl
  · show cnt s.black t + cnt s.red t = cnt s.red t + cnt s.black t
    omega

/-- Helper: the new position recorded by the piece-level move. -/
theorem moveToTile_tilenum (p : Piece) (tile : Int) :
    (p.moveToTile tile).tilenum = tile := by
  simp only [Piece.moveToTile]
  split
  · rfl
  · split <;> rfl

/-- Helper: under the occupancy correspondence, the tile under any listed
piece is flagged occupied. -/
theorem occupied_of_getElem {s : GameState} {c : PlayerColor} {i : Nat}
    {p : Piece} (hInv : OccInv s) (hp : (s.piecesOf c)[i]? = some p) :
    s.occupied p.tilenum = true := by
  have hcnt : cnt (s.piecesOf c) p.tilenum ≠ 0 := cnt_pos_of_getElem hp
  have hsum := countAt_split s c p.tilenum
  have := hInv p.tilenum
  by_cases h : s.occupied p.tilenum = true
  · exact h
  · rw [if_neg h] at this
    omega

/-- Helper: under the occupancy correspondence, any tile hosting an
opponent piece is flagged occupied. -/
theorem occupied_of_mem {s : GameState} {c : PlayerColor} {q : Piece}
    (hInv : OccInv s) (hq : q ∈ s.piecesOf c) :
    s.occupied q.tilenum = true := by
  have hcnt : cnt (s.piecesOf c) q.tilenum ≠ 0 := cnt_pos_of_mem hq
  have hsum := countAt_split s c q.tilenum
  have := hInv q.tilenum
  by_cases h : s.occupied q.tilenum = true
  · exact h
  · rw [if_neg h] at this
    omega

/-- Helper: a legal `moveTo` — the destination tile is unoccupied —
preserves the occupancy correspondence. -/
theorem occInv_moveTo {s : GameState} {c : PlayerColor} {i : Nat} {p : Piece}
    {tile : Int} (hInv : OccInv s) (hp : (s.piecesOf c)[i]? = some p)
    (hocc : s.occupied tile = false) : OccInv (s.moveTo c i tile) := by
  have hsrc : s.occupied p.tilenum = true := occupied_of_getElem hInv hp
  have hne : p.tilenum ≠ tile := by
    intro h
    rw [h, hocc] at hsrc
    exact Bool.false_ne_true hsrc
  intro u
  unfold GameState.moveTo
  rw [hp]
  have hkey := cnt_modifyIdx (fun q => q.moveToTile tile) hp u
  rw [moveToTile_tilenum] at hkey
  set s1 : GameState :=
    { s with occupied := setOcc (setOcc s.occupied p.tilenum false) tile true }
    with hs1
  have hpieces1 : ∀ c', s1.piecesOf c' = s.piecesOf c' := by
    intro c'
    cases c' <;> rfl
  rw [countAt_split _ c]
  rw [piecesOf_setPieces_self, piecesOf_setPieces_other _ (opponent_ne c),
    hpieces1, occupied_setPieces]
  have hocc1 : s1.occupied u =
      (if u = tile then true else if u = p.tilenum then false else s.occupied u) := by
    rw [hs1]
    show setOcc (setOcc s.occupied p.tilenum false) tile true u = _
    unfold setOcc
    by_cases h1 : u = tile <;> by_cases h2 : u = p.tilenum <;> simp [h1, h2]
  rw [hocc1]
  have hInvu := hInv u
  rw [countAt_split _ c] at hInvu
  by_cases h1 : u = tile
  · rw [if_pos h1, if_pos rfl]
    have e1 : (if tile = u then (1:Nat) else 0) = 1 := if_pos h1.symm
    have e2 : (if p.tilenum = u then (1:Nat) else 0) = 0 :=
      if_neg (fun h => hne (h.trans h1))
    rw [e2, e1] at hkey
    have e3 : s.occupied u = false := by
      rw [h1]
      exact hocc
    rw [e3] at hInvu
    simp only [Bool.false_eq_true, if_false] at hInvu
    omega
  · rw [if_neg h1]
    by_cases h2 : u = p.tilenum
    · rw [if_pos h2]
      simp only [Bool.false_eq_true, if_false]
      have e1 : (if tile = u then (1:Nat) else 0) = 0 :=
        if_neg (fun h => h1 h.symm)
      have e2 : (if p.tilenum = u then (1:Nat) else 0) = 1 := if_pos h2.symm
      rw [e2, e1] at hkey
      have e3 : s.occupied u = true := by
        rw [h2]
        exact hsrc
      rw [e3, if_pos rfl] at hInvu
      have hcp : cnt (s.piecesOf c) u ≠ 0 := by
        rw [h2]
        exact cnt_pos_of_getElem hp
      omega
    · rw [if_neg h2]
      have e1 : (if tile = u then (1:Nat) else 0) = 0 :=
        if_neg (fun h => h1 h.symm)
      have e2 : (if p.tilenum = u then (1:Nat) else 0) = 0 :=
        if_neg (fun h => h2 h.symm)
      rw [e2, e1] at hkey
      omega

/-- Helper: `moveTo` leaves the other player's piece list alone. -/
theorem piecesOf_moveTo_other {s : GameState} {c : PlayerColor} {i : Nat}
    {tile : Int} {c' : PlayerColor} (h : c' ≠ c) :
    (s.moveTo c i tile).piecesOf c' = s.piecesOf c' := by
  unfold GameState.moveTo
  cases hp : (s.piecesOf c)[i]? with
  | none => rfl
  | some p =>
    rw [piecesOf_setPieces_other _ h]
    cases c' <;> rfl

/-- Helper: the tile flags after `moveTo`: source cleared, destination
set. -/
theorem occupied_moveTo {s : GameState} {c : PlayerColor} {i : Nat}
    {tile : Int} {p : Piece} (hp : (s.piecesOf c)[i]? = some p) :
    (s.moveTo c i tile).occupied =
      setOcc (setOcc s.occupied p.tilenum false) tile true := by
  unfold GameState.moveTo
  rw [hp, occupied_setPieces]

/-- Helper: the tile flags after `jumpTo`: those after the embedded move,
with the jumped tile cleared. -/
theorem occupied_jumpTo (s : GameState) (c : PlayerColor) (i : Nat) (j : Jump) :
    (s.jumpTo c i j).occupied =
      setOcc ((s.moveTo c i j.endTile).occupied) j.jumpedTile false := by
  show setOcc ((s.moveTo c i j.endTile).killPiece c.opponent j.jumpedTile).occupied
      j.jumpedTile false = _
  unfold GameState.killPiece
  rw [occupied_setPieces]

/-- Helper: `jumpTo` leaves the jumping player's own piece list as the
embedded move left it. -/
theorem piecesOf_jumpTo_self (s : GameState) (c : PlayerColor) (i : Nat)
    (j : Jump) :
    (s.jumpTo c i j).piecesOf c = (s.moveTo c i j.endTile).piecesOf c := by
  show (GameState.mk _ ((s.moveTo c i j.endTile).killPiece c.opponent j.jumpedTile).black
      ((s.moveTo c i j.endTile).killPiece c.opponent j.jumpedTile).red).piecesOf c = _
  rw [piecesOf_withOccupied]
  unfold GameState.killPiece
  exact piecesOf_setPieces_other _ (fun h => opponent_ne c h.symm) _

/-- Helper: `jumpTo` removes the first opponent piece on the jumped tile. -/
theorem piecesOf_jumpTo_opp (s : GameState) (c : PlayerColor) (i : Nat)
    (j : Jump) :
    (s.jumpTo c i j).piecesOf c.opponent =
      removeFirstAt ((s.moveTo c i j.endTile).piecesOf c.opponent) j.jumpedTile := by
  show (GameState.mk _ ((s.moveTo c i j.endTile).killPiece c.opponent j.jumpedTile).black
      ((s.moveTo c i j.endTile).killPiece c.opponent j.jumpedTile).red).piecesOf c.opponent = _
  rw [piecesOf_withOccupied]
  unfold GameState.killPiece
  exact piecesOf_setPieces_self _ _ _

/-- Helper: a legal `jumpTo` — landing tile unoccupied and some opponent
piece on the jumped tile — preserves the occupancy correspondence. -/
theorem occInv_jumpTo {s : GameState} {c : PlayerColor} {i : Nat} {p : Piece}
    {j : Jump} (hInv : OccInv s) (hp : (s.piecesOf c)[i]? = some p)
    (hend : s.occupied j.endTile = false)
    (hq : ∃ q ∈ s.piecesOf c.opponent, q.tilenum = j.jumpedTile) :
    OccInv (s.jumpTo c i j) := by
  obtain ⟨q, hqmem, hqt⟩ := hq
  have hoccJ : s.occupied j.jumpedTile = true := hqt ▸ occupied_of_mem hInv hqmem
  have hsrc : s.occupied p.tilenum = true := occupied_of_getElem hInv hp
  have hJne : j.jumpedTile ≠ j.endTile := by
    intro h
    rw [h, hend] at hoccJ
    exact Bool.false_ne_true hoccJ
  have hJnsrc : j.jumpedTile ≠ p.tilenum := by
    intro h
    have h1 : cnt (s.piecesOf c) p.tilenum ≠ 0 := cnt_pos_of_getElem hp
    have h2 : cnt (s.piecesOf c.opponent) p.tilenum ≠ 0 := by
      rw [← h, ← hqt]
      exact cnt_pos_of_mem hqmem
    have h3 := hInv p.tilenum
    rw [countAt_split _ c] at h3
    by_cases h4 : s.occupied p.tilenum = true
    · rw [if_pos h4] at h3
      omega
    · rw [if_neg h4] at h3
      omega
  have hInv1 : OccInv (s.moveTo c i j.endTile) := occInv_moveTo hInv hp hend
  have hopp1 : (s.moveTo c i j.endTile).piecesOf c.opponent = s.piecesOf c.opponent :=
    piecesOf_moveTo_other (opponent_ne c)
  have hocc1 : (s.moveTo c i j.endTile).occupied j.jumpedTile = true := by
    rw [occupied_moveTo hp]
    unfold setOcc
    rw [if_neg hJne, if_neg hJnsrc]
    exact hoccJ
  have hcnt1 : cnt ((s.moveTo c i j.endTile).piecesOf c.opponent) j.jumpedTile ≠ 0 := by
    rw [hopp1, ← hqt]
    exact cnt_pos_of_mem hqmem
  intro u
  rw [countAt_split _ c, piecesOf_jumpTo_self, piecesOf_jumpTo_opp,
    occupied_jumpTo]
  have hkey := cnt_removeFirstAt hcnt1 u
  have hInv1u := hInv1 u
  rw [countAt_split _ c] at hInv1u
  unfold setOcc
  by_cases h1 : u = j.jumpedTile
  · rw [if_pos h1]
    simp only [Bool.false_eq_true, if_false]
    have e1 : (if j.jumpedTile = u then (1:Nat) else 0) = 1 := if_pos h1.symm
    rw [e1] at hkey
    have e2 : (s.moveTo c i j.endTile).occupied u = true := by
      rw [h1]
      exact hocc1
    rw [e2, if_pos rfl] at hInv1u
    omega
  · rw [if_neg h1]
    have e1 : (if j.jumpedTile = u then (1:Nat) else 0) = 0 :=
      if_neg (fun h => h1 h.symm)
    rw [e1] at hkey
    omega

/-- Helper: list indexing hits only members. -/
theorem mem_of_getElemOpt {ps : List Piece} {i : Nat} {p : Piece}
    (hp : ps[i]? = some p) : p ∈ ps := by
  induction ps generalizing i with
  | nil => simp at hp
  | cons q rest ih =>
    cases i with
    | zero =>
      simp only [List.getElem?_cons_zero, Option.some_inj] at hp
      exact hp ▸ List.mem_cons_self _ _
    | succ n =>
      simp only [List.getElem?_cons_succ] at hp
      exact List.mem_cons_of_mem _ (ih hp)

/-- Helper: the piece-level move never changes the owner color. -/
theorem moveToTile_color (p : Piece) (tile : Int) :
    (p.moveToTile tile).color = p.color := by
  simp only [Piece.moveToTile]
  split
  · rfl
  · split <;> rfl

/-- Helper: members of the modified list are old members or the image of
the modified member. -/
theorem mem_modifyIdx {ps : List Piece} {i : Nat} {f : Piece → Piece}
    {q : Piece} (hq : q ∈ modifyIdx ps i f) :
    q ∈ ps ∨ ∃ r ∈ ps, q = f r := by
  induction ps generalizing i with
  | nil => simp [modifyIdx] at hq
  | cons p rest ih =>
    cases i with
    | zero =>
      simp only [modifyIdx, List.mem_cons] at hq
      rcases hq with rfl | hq
      · exact Or.inr ⟨p, List.mem_cons_self _ _, rfl⟩
      · exact Or.inl (List.mem_cons_of_mem _ hq)
    | succ n =>
      simp only [modifyIdx, List.mem_cons] at hq
      rcases hq with rfl | hq
      · exact Or.inl (List.mem_cons_self _ _)
      · rcases ih hq with h | ⟨r, hr, he⟩
        · exact Or.inl (List.mem_cons_of_mem _ h)
        · exact Or.inr ⟨r, List.mem_cons_of_mem _ hr, he⟩

/-- Helper: every color is the mover's color or its opponent. -/
theorem color_cases (c c' : PlayerColor) : c' = c ∨ c' = c.opponent := by
  cases c <;> cases c' <;> simp [PlayerColor.opponent]

/-- Helper: `moveTo` preserves the ownership invariant. -/
theorem colorOk_moveTo {s : GameState} {c : PlayerColor} {i : Nat}
    {tile : Int} (hCol : ColorOk s) : ColorOk (s.moveTo c i tile) := by
  intro c' q hq
  by_cases hc : c' = c
  · subst hc
    unfold GameState.moveTo at hq
    cases hp : (s.piecesOf c')[i]? with
    | none =>
      rw [hp] at hq
      exact hCol c' q hq
    | some p =>
      rw [hp] at hq
      rw [piecesOf_setPieces_self] at hq
      rcases mem_modifyIdx hq with h | ⟨r, hr, he⟩
      · exact hCol c' q h
      · rw [he, moveToTile_color]
        exact hCol c' r hr
  · rw [piecesOf_moveTo_other hc] at hq
    exact hCol c' q hq

/-- Helper: `jumpTo` preserves the ownership invariant. -/
theorem colorOk_jumpTo {s : GameState} {c : PlayerColor} {i : Nat}
    {j : Jump} (hCol : ColorOk s) : ColorOk (s.jumpTo c i j) := by
  intro c' q hq
  have hmv : ColorOk (s.moveTo c i j.endTile) := colorOk_moveTo hCol
  rcases color_cases c c' with hc | hc
  · subst hc
    rw [piecesOf_jumpTo_self] at hq
    exact hmv c' q hq
  · subst hc
    rw [piecesOf_jumpTo_opp] at hq
    exact hmv c.opponent q (mem_removeFirstAt hq)

/-- Helper: a legal simple move targets an unoccupied tile. -/
theorem getMoves_unoccupied {p : Piece} {s : GameState} {tile : Int}
    (h : tile ∈ p.getMoves s) : s.occupied tile = false := by
  unfold Piece.getMoves at h
  have := (List.mem_filter.mp h).2
  simp only [Bool.not_eq_true'] at this
  exact this

/-- Helper: a legal jump lands on an unoccupied tile. -/
theorem getJumps_endTile_unoccupied {p : Piece} {s : GameState} {j : Jump}
    (h : j ∈ p.getJumps s) : s.occupied j.endTile = false := by
  unfold Piece.getJumps at h
  have := (List.mem_filter.mp h).2
  simp only [Bool.and_eq_true, Bool.not_eq_true'] at this
  exact this.2

/-- Helper: a legal jump captures a tile hosting an opponent piece. -/
theorem getJumps_jumped_opp {p : Piece} {s : GameState} {j : Jump}
    (h : j ∈ p.getJumps s) :
    ∃ q ∈ s.piecesOf p.color.opponent, q.tilenum = j.jumpedTile := by
  unfold Piece.getJumps at h
  have h1 := (List.mem_filter.mp h).1
  obtain ⟨n, hn, he⟩ := List.mem_map.mp h1
  have hmemo : n ∈ s.oppTiles p.color := by
    have := (List.mem_filter.mp hn).2
    exact of_decide_eq_true this
  obtain ⟨q, hq, hqn⟩ := List.mem_map.mp hmemo
  refine ⟨q, hq, ?_⟩
  rw [hqn, ← he, mkJump_jumpedTile]

/-- Helper: one legal engine step preserves both invariants. -/
theorem step_preserves {s s' : GameState} (h : Step s s')
    (hInv : OccInv s) (hCol : ColorOk s) : OccInv s' ∧ ColorOk s' := by
  cases h with
  | move c i p tile hp hm =>
    exact ⟨occInv_moveTo hInv hp (getMoves_unoccupied hm), colorOk_moveTo hCol⟩
  | jump c i p j hp hj =>
    have hpc : p.color = c := hCol c p (mem_of_getElemOpt hp)
    have hopp := getJumps_jumped_opp hj
    rw [hpc] at hopp
    exact ⟨occInv_jumpTo hInv hp (getJumps_endTile_unoccupied hj) hopp,
      colorOk_jumpTo hCol⟩

/-- Helper: counts over the freshly populated run of pieces of one player. -/
theorem cnt_rangePieces (c : PlayerColor) (s0 : Int) (n : Nat) (t : Int) :
    cnt ((List.range n).map
        (fun (k : Nat) => Piece.mk c (s0 + (k : Int)) false)) t =
      if s0 ≤ t ∧ t < s0 + n then 1 else 0 := by
  induction n with
  | zero =>
    rw [if_neg (by push_cast; omega)]
    rfl
  | succ m ih =>
    rw [List.range_succ, List.map_append, cnt_append, ih]
    simp only [List.map_cons, List.map_nil]
    have hsing : cnt [Piece.mk c (s0 + (m : Int)) false] t =
        if s0 + (m : Int) = t then 1 else 0 := by
      rw [show ([Piece.mk c (s0 + (m : Int)) false] : List Piece) =
        Piece.mk c (s0 + (m : Int)) false :: [] from rfl, cnt_cons]
      rw [show cnt [] t = 0 from rfl]
      dsimp only
      omega
    rw [hsing]
    push_cast
    split_ifs <;> omega

/-- Helper: the freshly populated game satisfies the occupancy
correspondence. -/
theorem occInv_init : OccInv initState := by
  intro t
  show cnt (populatePieces .black) t + cnt (populatePieces .red) t =
    if initOccupied t = true then 1 else 0
  unfold populatePieces
  rw [show startTileOf PlayerColor.black = 0 from rfl,
    show startTileOf PlayerColor.red = 20 from rfl,
    cnt_rangePieces, cnt_rangePieces]
  simp only [initOccupied, Bool.and_eq_true, Bool.or_eq_true, decide_eq_true_eq,
    show boardSize * halfBoardSize = 32 from rfl,
    show halfBoardSize * (halfBoardSize - 1) = 12 from rfl,
    show halfBoardSize * (halfBoardSize + 1) = 20 from rfl,
    show ((halfBoardSizeN * (halfBoardSizeN - 1) : Nat) : Int) = 12 from rfl]
  split_ifs <;> omega

/-- Helper: the freshly populated game satisfies the ownership invariant. -/
theorem colorOk_init : ColorOk initState := by
  intro c p hp
  cases c
  · obtain ⟨k, hk, he⟩ := List.mem_map.mp hp
    rw [← he]
  · obtain ⟨k, hk, he⟩ := List.mem_map.mp hp
    rw [← he]

/-- Helper: both invariants hold in every reachable state. -/
theorem invariants_reachable {s : GameState} (h : Reachable s) :
    OccInv s ∧ ColorOk s := by
  induction h with
  | refl => exact ⟨occInv_init, colorOk_init⟩
  | tail hr hstep ih => exact step_preserves hstep ih.1 ih.2

/-- C1 counterexample: `killPiece` alone does not preserve the occupancy
correspondence.  Starting from the initial layout (which satisfies it),
killing black's piece on tile 0 removes the piece but leaves tile 0's
occupancy flag set: the flag is true while zero live pieces sit there, so
the state reached by this single `killPiece` application violates the
claimed invariant. -/
theorem c1_counterexample :
    OccInv initState ∧
    (initState.killPiece .black 0).occupied 0 = true ∧
    (initState.killPiece .black 0).countAt 0 = 0 ∧
    ¬ OccInv (initState.killPiece .black 0) := by
  refine ⟨occInv_init, by decide, by decide, ?_⟩
  intro h
  have h0 := h 0
  have e1 : (initState.killPiece .black 0).occupied 0 = true := by decide
  have e2 : (initState.killPiece .black 0).countAt 0 = 0 := by decide
  rw [e1, e2] at h0
  simp at h0

/-- C1 (amended): the occupancy correspondence — every tile flag is true
exactly when exactly one live piece sits there, and no two live pieces
ever share a tile — holds in the initial layout and in every state
reachable by legal `moveTo` and `jumpTo` applications, and each such
application preserves it.  (`killPiece` alone does not preserve it: the
captured tile's flag stays set until `jumpTo` clears it right after, see
the counterexample.) -/
theorem c1_occupancy_invariant :
    OccInv initState ∧
    (∀ s s' : GameState, Step s s' → OccInv s → ColorOk s → OccInv s') ∧
    (∀ s : GameState, Reachable s → ∀ t : Int,
      (s.occupied t = true ↔ s.countAt t = 1) ∧ s.countAt t ≤ 1) := by
  refine ⟨occInv_init, ?_, ?_⟩
  · intro s s' hs hI hC
    exact (step_preserves hs hI hC).1
  · intro s hr t
    have hI := (invariants_reachable hr).1
    have hit := hI t
    by_cases h : s.occupied t = true
    · rw [if_pos h] at hit
      exact ⟨⟨fun _ => hit, fun _ => h⟩, by omega⟩
    · rw [if_neg h] at hit
      refine ⟨⟨fun hh => absurd hh h, fun hh => ?_⟩, by omega⟩
      exact absurd (hit.symm.trans hh) (by decide)

/-- C1 witness: the initial layout is reachable and tile 0 there carries
exactly one piece with its flag set. -/
theorem c1_occupancy_invariant_witness :
    Reachable initState ∧
    ((initState.occupied 0 = true ↔ initState.countAt 0 = 1) ∧
      initState.countAt 0 ≤ 1) :=
  ⟨Relation.ReflTransGen.refl,
    c1_occupancy_invariant.2.2 initState Relation.ReflTransGen.refl 0⟩
